import Mathlib

/-!
Shallow embedding of the `movingaverage` Go package: a fixed-capacity
ring buffer of `float64` samples (`src/ma.go`) together with its
lock-based concurrency wrapper, and the statistics convenience methods.

Modelling conventions:
* Go `float64` is modelled by `F64`: NaN, a signed infinity, or an exact
  finite value (a rational).  The claims under verification only involve
  exactly-representable values, so exact arithmetic is faithful there.
* Go slices are modelled by `List F64`; Go runtime panics (out-of-range
  indexing or slicing, `make` with a negative length, `%` by zero) are
  modelled by `Option`, with `none` standing for a panic.
* The external statistics collaborator (`github.com/montanaflynn/stats`)
  is not part of this repository; its `Mean`, `Median`, `Min`, `Max` are
  modelled from the spec (pure functions over an ordered sequence of
  floats, returning a result-or-error, the error signalling empty input).
-/

set_option maxRecDepth 4000

namespace MovingAverage

/-- Exact rational numbers in a kernel-computable representation
(numerator, positive denominator, kept normalized by the operations).
Mathlib's `Rat` arithmetic does not reduce inside the kernel, which
would block `decide` on the concrete test scenarios, so this small
stand-in is used for the finite values of the float model. -/
structure MyRat where
  num : Int
  den : Nat
deriving DecidableEq

/-- Euclidean gcd with explicit fuel (structural recursion, so the
kernel can evaluate it). -/
def gcdAux : Nat → Nat → Nat → Nat
  | 0, _, b => b
  | fuel + 1, a, b => if a = 0 then b else gcdAux fuel (b % a) a

/-- Greatest common divisor (fueled; `a + 1` steps always suffice). -/
def myGcd (a b : Nat) : Nat := gcdAux (a + 1) a b

/-- Build the normalized rational `n / d` (for `d ≠ 0`). -/
def MyRat.normalize (n : Int) (d : Nat) : MyRat :=
  if d = 0 then ⟨0, 1⟩
  else if n = 0 then ⟨0, 1⟩
  else
    let g := myGcd n.natAbs d
    if n < 0 then ⟨-((n.natAbs / g : Nat) : Int), d / g⟩
    else ⟨((n.natAbs / g : Nat) : Int), d / g⟩

instance (n : Nat) : OfNat MyRat n := ⟨⟨(n : Int), 1⟩⟩

/-- Exact addition. -/
def MyRat.add (x y : MyRat) : MyRat :=
  MyRat.normalize (x.num * (y.den : Int) + y.num * (x.den : Int)) (x.den * y.den)

/-- Exact division by a natural number. -/
def MyRat.divNat (x : MyRat) (n : Nat) : MyRat :=
  MyRat.normalize x.num (x.den * n)

/-- Boolean `≤` (cross-multiplication; denominators are positive). -/
def MyRat.ble (x y : MyRat) : Bool :=
  decide (x.num * (y.den : Int) ≤ y.num * (x.den : Int))

/-- Boolean `<` (cross-multiplication; denominators are positive). -/
def MyRat.blt (x y : MyRat) : Bool :=
  decide (x.num * (y.den : Int) < y.num * (x.den : Int))

/-- Model of a Go `float64` value: NaN, an infinity (`neg = true` for
negative infinity), or an exact finite value. -/
inductive F64 where
  | nan : F64
  | inf (neg : Bool) : F64
  | finite (q : MyRat) : F64
deriving DecidableEq

/-- Go `math.IsNaN`. -/
def F64.isNaN : F64 → Bool
  | .nan => true
  | _ => false

/-- Go `math.IsInf(v, 0)`: true for either infinity. -/
def F64.isInf : F64 → Bool
  | .inf _ => true
  | _ => false

/-- IEEE-754 addition on the model: NaN propagates, opposite infinities
give NaN, an infinity absorbs finite values, finite values add exactly. -/
def F64.add : F64 → F64 → F64
  | .nan, _ => .nan
  | _, .nan => .nan
  | .inf b, .inf c => if b = c then .inf b else .nan
  | .inf b, .finite _ => .inf b
  | .finite _, .inf b => .inf b
  | .finite p, .finite q => .finite (p.add q)

/-- Division of a float by a positive integer count (used by `Mean`). -/
def F64.divNat : F64 → Nat → F64
  | .nan, _ => .nan
  | .inf b, _ => .inf b
  | .finite q, n => .finite (q.divNat n)

/-- IEEE-754 `<` on the model: any comparison involving NaN is false. -/
def F64.ltGo : F64 → F64 → Bool
  | .nan, _ => false
  | _, .nan => false
  | .inf true, .inf true => false
  | .inf true, _ => true
  | _, .inf true => false
  | .inf false, _ => false
  | .finite _, .inf false => true
  | .finite p, .finite q => p.blt q

/-- Total sorting order used by Go's `sort.Float64s` (NaN sorts before
everything else, then negative infinity, finite values, positive
infinity). -/
def F64.leSort : F64 → F64 → Bool
  | .nan, _ => true
  | _, .nan => false
  | .inf true, _ => true
  | _, .inf true => false
  | .inf false, .inf false => true
  | .inf false, _ => false
  | _, .inf false => true
  | .finite p, .finite q => p.ble q

/-- Insert into a list sorted by `F64.leSort`. -/
def sortedInsert (x : F64) : List F64 → List F64
  | [] => [x]
  | y :: ys => if F64.leSort x y then x :: y :: ys else y :: sortedInsert x ys

/-- Sort a list of floats the way Go's `sort.Float64s` does.  In this
model distinct elements never compare equal under `F64.leSort` ties, so
any correct sort produces this list. -/
def sortF64 (l : List F64) : List F64 := l.foldr sortedInsert []

/-- Error type of the external statistics collaborator; it reports an
error exactly on empty input. -/
inductive StatsError where
  | emptyInput : StatsError
deriving DecidableEq

/-- Modelled from the spec: the collaborator's `Sum`, folding IEEE
addition over the sequence starting from `0.0`. -/
def statsSumVal (l : List F64) : F64 := l.foldl F64.add (F64.finite 0)

/-- Modelled from the spec: the external collaborator's `Mean` (sum
divided by length), returning an error on empty input. -/
def statsMean (l : List F64) : F64 × Option StatsError :=
  if l.length = 0 then (F64.nan, some .emptyInput)
  else ((statsSumVal l).divNat l.length, none)

/-- Modelled from the spec: the external collaborator's `Median` (middle
of the sorted sequence, mean of the two middles when the length is
even), returning an error on empty input. -/
def statsMedian (l : List F64) : F64 × Option StatsError :=
  let c := sortF64 l
  let n := c.length
  if n = 0 then (F64.nan, some .emptyInput)
  else if n % 2 = 0 then ((statsMean ((c.drop (n / 2 - 1)).take 2)).1, none)
  else (c.getD (n / 2) F64.nan, none)

/-- Modelled from the spec: the external collaborator's `Min` (IEEE `<`
scan from the first element), returning an error on empty input. -/
def statsMin (l : List F64) : F64 × Option StatsError :=
  match l with
  | [] => (F64.nan, some .emptyInput)
  | x :: xs => (xs.foldl (fun m v => if F64.ltGo v m then v else m) x, none)

/-- Modelled from the spec: the external collaborator's `Max` (IEEE `>`
scan from the first element), returning an error on empty input. -/
def statsMax (l : List F64) : F64 × Option StatsError :=
  match l with
  | [] => (F64.nan, some .emptyInput)
  | x :: xs => (xs.foldl (fun m v => if F64.ltGo m v then v else m) x, none)

/-- `Options` from src/ma.go: configuration for a new store. -/
structure Options where
  IgnoreNanValues : Bool
  IgnoreInfValues : Bool
  Window : Int
deriving DecidableEq

/-- `movingStats` from src/ma.go: the ring-buffer store. -/
structure movingStats where
  window : Int
  values : List F64
  valPos : Int
  slotsFilled : Bool
  ignoreNanValues : Bool
  ignoreInfValues : Bool
deriving DecidableEq

/-- `New` from src/ma.go.  `make([]float64, n)` allocates `n` zeros and
panics (modelled by `none`) when `n` is negative. -/
def New (opts : Options) : Option movingStats :=
  if opts.Window < 0 then none
  else some
    { window := opts.Window
      values := List.replicate opts.Window.toNat (F64.finite 0)
      valPos := 0
      slotsFilled := false
      ignoreNanValues := opts.IgnoreNanValues
      ignoreInfValues := opts.IgnoreInfValues }

/-- The store `New` builds for a nonnegative window `w`. -/
def fresh (w : Nat) (ignN ignI : Bool) : movingStats :=
  { window := (w : Int)
    values := List.replicate w (F64.finite 0)
    valPos := 0
    slotsFilled := false
    ignoreNanValues := ignN
    ignoreInfValues := ignI }

/-- Go slice expression `l[0 : hi]` on a slice whose capacity equals its
length: panics (`none`) unless `0 ≤ hi ≤ len`. -/
def goSliceTo (l : List F64) (hi : Int) : Option (List F64) :=
  if 0 ≤ hi ∧ hi ≤ (l.length : Int) then some (l.take hi.toNat) else none

/-- `movingStats.filledValues` from src/ma.go: the live slice — the
whole buffer once filled, `values[0 : valPos]` before that, and the nil
slice when empty. -/
def movingStats.filledValues (ma : movingStats) : Option (List F64) :=
  if !ma.slotsFilled then
    if ma.valPos - 1 < 0 then some []
    else goSliceTo ma.values (ma.valPos - 1 + 1)
  else goSliceTo ma.values (ma.window - 1 + 1)

/-- One iteration of the loop body of `movingStats.Add` (src/ma.go):
apply the NaN/Inf filters, otherwise write at the cursor and advance it
modulo the window.  `none` models a panic: an out-of-range buffer write,
or `%` by zero.  Go's `%` is truncated division remainder, `Int.tmod`. -/
def movingStats.addOne (ma : movingStats) (val : F64) : Option movingStats :=
  if ma.ignoreNanValues && val.isNaN then some ma
  else if ma.ignoreInfValues && val.isInf then some ma
  else if 0 ≤ ma.valPos ∧ ma.valPos < (ma.values.length : Int) then
    if ma.window = 0 then none
    else
      some { ma with
             values := ma.values.set ma.valPos.toNat val
             valPos := (ma.valPos + 1).tmod ma.window
             slotsFilled := ma.slotsFilled ||
               decide ((ma.valPos + 1).tmod ma.window = 0) }
  else none

/-- `movingStats.Add` from src/ma.go: the variadic loop over the
arguments, processed in order. -/
def movingStats.Add : movingStats → List F64 → Option movingStats
  | ma, [] => some ma
  | ma, v :: vs =>
    match movingStats.addOne ma v with
    | none => none
    | some ma2 => movingStats.Add ma2 vs

/-- `movingStats.Window` from src/ma.go. -/
def movingStats.Window (ma : movingStats) : Int := ma.window

/-- `movingStats.SlotsFilled` from src/ma.go. -/
def movingStats.SlotsFilled (ma : movingStats) : Bool := ma.slotsFilled

/-- `movingStats.Values` from src/ma.go: allocates a fresh slice and
copies the live slice into it.  In this pure model the copy is the same
list of values; the freshness of the allocation is captured separately
by the heap model below. -/
def movingStats.Values (ma : movingStats) : Option (List F64) :=
  (movingStats.filledValues ma).map fun internal => internal

/-- `movingStats.Count` from src/ma.go: `len(filledValues())`. -/
def movingStats.Count (ma : movingStats) : Option Nat :=
  (movingStats.filledValues ma).map List.length

/-- `movingStats.Avg` from src/ma.go: collaborator `Mean` over the live
slice, with any error swallowed into `0.0`. -/
def movingStats.Avg (ma : movingStats) : Option F64 :=
  (movingStats.filledValues ma).map fun l =>
    match statsMean l with
    | (_, some _) => F64.finite 0
    | (v, none) => v

/-- `movingStats.Median` from src/ma.go: collaborator `Median` over the
live slice, with any error swallowed into `0.0`. -/
def movingStats.Median (ma : movingStats) : Option F64 :=
  (movingStats.filledValues ma).map fun l =>
    match statsMedian l with
    | (_, some _) => F64.finite 0
    | (v, none) => v

/-- `movingStats.Min` from src/ma.go: collaborator `Min` over the live
slice, with any error swallowed into `0.0`. -/
def movingStats.Min (ma : movingStats) : Option F64 :=
  (movingStats.filledValues ma).map fun l =>
    match statsMin l with
    | (_, some _) => F64.finite 0
    | (v, none) => v

/-- `movingStats.Max` from src/ma.go: collaborator `Max` over the live
slice, with any error swallowed into `0.0`. -/
def movingStats.Max (ma : movingStats) : Option F64 :=
  (movingStats.filledValues ma).map fun l =>
    match statsMax l with
    | (_, some _) => F64.finite 0
    | (v, none) => v

/-- `movingStats.UnsafeDoStat` from src/ma.go: run the reducer directly
on the internal live slice and return its (value, error) pair verbatim.
The Go `error` result type is modelled by an arbitrary type `ε`. -/
def movingStats.UnsafeDoStat {ε : Type} (ma : movingStats)
    (f : List F64 → F64 × Option ε) : Option (F64 × Option ε) :=
  (movingStats.filledValues ma).map f

/-- `movingStats.UnsafeDo` from src/ma.go: run the reducer directly on
the internal live slice and return its error verbatim. -/
def movingStats.UnsafeDo {ε : Type} (ma : movingStats)
    (f : List F64 → Option ε) : Option (Option ε) :=
  (movingStats.filledValues ma).map f

/-- `concurrentMovingStats` from the concurrency-wrapper source file: a
wrapped store plus one `sync.RWMutex`.  Under the single-threaded
semantics modelled here, the balanced lock/unlock pair around each
delegated call has no observable effect, so the lock holds no state. -/
structure concurrentMovingStats where
  ma : movingStats
deriving DecidableEq

/-- `NewConcurrent`: wraps `New(opts)`. -/
def NewConcurrent (opts : Options) : Option concurrentMovingStats :=
  (New opts).map concurrentMovingStats.mk

/-- Wrapper `Add`: take the write lock, delegate to the wrapped store. -/
def concurrentMovingStats.Add (c : concurrentMovingStats) (vs : List F64) :
    Option concurrentMovingStats :=
  (movingStats.Add c.ma vs).map concurrentMovingStats.mk

/-- Wrapper `Window`: take the read lock, delegate. -/
def concurrentMovingStats.Window (c : concurrentMovingStats) : Int :=
  movingStats.Window c.ma

/-- Wrapper `SlotsFilled`: take the read lock, delegate. -/
def concurrentMovingStats.SlotsFilled (c : concurrentMovingStats) : Bool :=
  movingStats.SlotsFilled c.ma

/-- Wrapper `Values`: take the read lock, delegate. -/
def concurrentMovingStats.Values (c : concurrentMovingStats) : Option (List F64) :=
  movingStats.Values c.ma

/-- Wrapper `Count`: take the read lock, delegate. -/
def concurrentMovingStats.Count (c : concurrentMovingStats) : Option Nat :=
  movingStats.Count c.ma

/-- Wrapper `Avg`: take the read lock, delegate. -/
def concurrentMovingStats.Avg (c : concurrentMovingStats) : Option F64 :=
  movingStats.Avg c.ma

/-- Wrapper `Median`: take the read lock, delegate. -/
def concurrentMovingStats.Median (c : concurrentMovingStats) : Option F64 :=
  movingStats.Median c.ma

/-- Wrapper `Min`: take the read lock, delegate. -/
def concurrentMovingStats.Min (c : concurrentMovingStats) : Option F64 :=
  movingStats.Min c.ma

/-- Wrapper `Max`: take the read lock, delegate. -/
def concurrentMovingStats.Max (c : concurrentMovingStats) : Option F64 :=
  movingStats.Max c.ma

/-- Wrapper `UnsafeDoStat`: take the read lock, delegate. -/
def concurrentMovingStats.UnsafeDoStat {ε : Type} (c : concurrentMovingStats)
    (f : List F64 → F64 × Option ε) : Option (F64 × Option ε) :=
  movingStats.UnsafeDoStat c.ma f

/-- Wrapper `UnsafeDo`: take the read lock, delegate. -/
def concurrentMovingStats.UnsafeDo {ε : Type} (c : concurrentMovingStats)
    (f : List F64 → Option ε) : Option (Option ε) :=
  movingStats.UnsafeDo c.ma f

/-- The public operations of the store, as an operation alphabet for
state-machine style statements. -/
inductive Op where
  | add (vs : List F64)
  | window
  | slotsFilled
  | values
  | count
  | avg
  | median
  | omin
  | omax

/-- Whether an operation is one of the read-only accessors. -/
def Op.isRead : Op → Bool
  | .add _ => false
  | _ => true

/-- The state transition of each operation (`none` models a panic).  The
read-only method bodies of src/ma.go contain no assignment to any field
of the receiver, so their state component is the unchanged receiver; a
read that panics produces no state at all. -/
def stepState (s : movingStats) : Op → Option movingStats
  | .add vs => movingStats.Add s vs
  | .window => some s
  | .slotsFilled => some s
  | .values => (movingStats.Values s).map fun _ => s
  | .count => (movingStats.Count s).map fun _ => s
  | .avg => (movingStats.Avg s).map fun _ => s
  | .median => (movingStats.Median s).map fun _ => s
  | .omin => (movingStats.Min s).map fun _ => s
  | .omax => (movingStats.Max s).map fun _ => s

/-- A small heap of float arrays, used to state the allocation-freshness
contract of `Values()`: Go slice headers are modelled as indices into
this heap. -/
structure Mem where
  arrs : List (List F64)
deriving DecidableEq

/-- Read the array behind a reference. -/
def Mem.read (m : Mem) (r : Nat) : List F64 := m.arrs.getD r []

/-- Overwrite the array behind a reference (a caller mutating a slice it
was handed). -/
def Mem.write (m : Mem) (r : Nat) (a : List F64) : Mem := ⟨m.arrs.set r a⟩

/-- Allocate a fresh array (Go `make` + `copy`), returning the new heap
and the fresh reference. -/
def Mem.alloc (m : Mem) (a : List F64) : Mem × Nat := (⟨m.arrs ++ [a]⟩, m.arrs.length)

/-- A store whose backing buffer lives in the heap `Mem` behind
`bufRef` (the other fields as in `movingStats`). -/
structure movingStatsRef where
  window : Int
  bufRef : Nat
  valPos : Int
  slotsFilled : Bool
  ignoreNanValues : Bool
  ignoreInfValues : Bool
deriving DecidableEq

/-- The plain store denoted by a heap-backed store under a given heap. -/
def movingStatsRef.toPure (h : movingStatsRef) (m : Mem) : movingStats :=
  { window := h.window
    values := m.read h.bufRef
    valPos := h.valPos
    slotsFilled := h.slotsFilled
    ignoreNanValues := h.ignoreNanValues
    ignoreInfValues := h.ignoreInfValues }

/-- `movingStats.Values` in the heap model, following src/ma.go line by
line: read the internal live slice, `make` a fresh slice of the same
length, `copy` the values into it, and return the fresh reference. -/
def ValuesRef (h : movingStatsRef) (m : Mem) : Option (Mem × Nat) :=
  (movingStats.filledValues (h.toPure m)).map fun internal => m.alloc internal

/-! ### List and arithmetic helper lemmas -/

universe u

theorem getD_cons_succ' {α : Type u} (x : α) (xs : List α) (i : Nat) (d : α) :
    (x :: xs).getD (i + 1) d = xs.getD i d := rfl

theorem getD_set_self {α : Type u} :
    ∀ (l : List α) (i : Nat) (v d : α), i < l.length → (l.set i v).getD i d = v
  | [], i, _, _, h => absurd h (by simp)
  | _ :: _, 0, _, _, _ => rfl
  | x :: xs, i + 1, v, d, h =>
    getD_set_self xs i v d (by simpa using h)

theorem getD_set_ne {α : Type u} :
    ∀ (l : List α) (i j : Nat) (v d : α), i ≠ j → (l.set i v).getD j d = l.getD j d
  | [], _, _, _, _, _ => rfl
  | _ :: _, 0, 0, _, _, h => absurd rfl h
  | _ :: _, 0, _ + 1, _, _, _ => rfl
  | _ :: _, _ + 1, 0, _, _, _ => rfl
  | x :: xs, i + 1, j + 1, v, d, h =>
    getD_set_ne xs i j v d (fun hij => h (by omega))

theorem getD_drop' {α : Type u} :
    ∀ (l : List α) (m i : Nat) (d : α), (l.drop m).getD i d = l.getD (m + i) d
  | _, 0, _, _ => by simp
  | [], _ + 1, _, _ => by simp [List.getD]
  | x :: xs, m + 1, i, d => by
    rw [Nat.succ_add]
    exact getD_drop' xs m i d

theorem getD_take_lt {α : Type u} :
    ∀ (l : List α) (k i : Nat) (d : α), i < k → (l.take k).getD i d = l.getD i d
  | [], _, _, _, _ => by simp
  | _ :: _, _ + 1, 0, _, _ => rfl
  | x :: xs, k + 1, i + 1, d, h =>
    getD_take_lt xs k i d (by omega)

theorem getD_replicate {α : Type u} :
    ∀ (w i : Nat) (z d : α), i < w → (List.replicate w z).getD i d = z
  | 0, _, _, _, h => absurd h (by simp)
  | _ + 1, 0, _, _, _ => rfl
  | w + 1, i + 1, z, d, h =>
    getD_replicate w i z d (by omega)

theorem getD_snoc_length {α : Type u} (l : List α) (v d : α) :
    (l ++ [v]).getD l.length d = v := by
  rw [List.getD_append_right _ _ _ _ (Nat.le_refl _), Nat.sub_self]
  rfl

theorem eq_of_getD {α : Type u} :
    ∀ (l1 l2 : List α) (d : α), l1.length = l2.length →
      (∀ i, i < l1.length → l1.getD i d = l2.getD i d) → l1 = l2
  | [], [], _, _, _ => rfl
  | [], _ :: _, _, hl, _ => by simp at hl
  | _ :: _, [], _, hl, _ => by simp at hl
  | x :: xs, y :: ys, d, hl, h => by
    have h0 := h 0 (by simp)
    have ht := eq_of_getD xs ys d (by simpa using hl)
      (fun i hi => h (i + 1) (by simpa using Nat.succ_lt_succ hi))
    simp only [List.getD_cons_zero] at h0
    rw [h0, ht]

theorem divmod_unique (a b q r : Nat) (hb : 0 < b) (hr : r < b)
    (h : a = b * q + r) : a / b = q ∧ a % b = r := by
  subst h
  refine ⟨?_, ?_⟩
  · simp [Nat.mul_add_div hb, Nat.div_eq_of_lt hr]
  · simp [Nat.mul_add_mod, Nat.mod_eq_of_lt hr]

theorem tmod_natCast (a b : Nat) :
    Int.tmod (a : Int) (b : Int) = ((a % b : Nat) : Int) := rfl

/-! ### The well-formedness invariant of reachable stores -/

/-- Structural invariant of every store reachable from `New`: the buffer
has exactly `window` slots, the cursor is in range, and a store with a
zero window is still pristine. -/
def WF (s : movingStats) : Prop :=
  0 ≤ s.window ∧ s.values.length = s.window.toNat ∧ 0 ≤ s.valPos ∧
  (0 < s.window → s.valPos < s.window) ∧
  (s.window = 0 → s.valPos = 0 ∧ s.slotsFilled = false)

theorem WF_fresh (w : Nat) (ignN ignI : Bool) : WF (fresh w ignN ignI) := by
  refine ⟨by simp [fresh], by simp [fresh], by simp [fresh], ?_, by simp [fresh]⟩
  simp [fresh]

theorem New_eq_fresh (opts : Options) (h : 0 ≤ opts.Window) :
    New opts = some (fresh opts.Window.toNat opts.IgnoreNanValues opts.IgnoreInfValues) := by
  simp only [New, fresh, Int.toNat_of_nonneg h]
  rw [if_neg (by omega)]

theorem WF_New (opts : Options) (s : movingStats) (h : New opts = some s) : WF s := by
  unfold New at h
  split at h
  · exact absurd h (by simp)
  · cases h
    rename_i hw
    refine ⟨by simp; omega, by simp, by simp, ?_, by simp⟩
    intro hpos
    simp only at hpos ⊢
    omega

theorem addOne_some_elim {s : movingStats} {v : F64} {s' : movingStats}
    (h : movingStats.addOne s v = some s') :
    s' = s ∨
      (s' = { s with
              values := s.values.set s.valPos.toNat v
              valPos := (s.valPos + 1).tmod s.window
              slotsFilled := s.slotsFilled ||
                decide ((s.valPos + 1).tmod s.window = 0) } ∧
        0 ≤ s.valPos ∧ s.valPos < (s.values.length : Int) ∧ s.window ≠ 0 ∧
        (s.ignoreNanValues && v.isNaN) = false ∧
        (s.ignoreInfValues && v.isInf) = false) := by
  unfold movingStats.addOne at h
  split at h
  · exact Or.inl (by cases h; rfl)
  · split at h
    · exact Or.inl (by cases h; rfl)
    · split at h
      · split at h
        · exact absurd h (by simp)
        · cases h
          rename_i hg1 hg2 hb hz
          refine Or.inr ⟨rfl, by omega, by omega, hz, ?_, ?_⟩
          · simpa using hg1
          · simpa using hg2
      · exact absurd h (by simp)

theorem addOne_WF {s : movingStats} {v : F64} {s' : movingStats}
    (hwf : WF s) (h : movingStats.addOne s v = some s') : WF s' := by
  obtain ⟨hw0, hlen, hp0, hplt, hz⟩ := hwf
  rcases addOne_some_elim h with h' | ⟨h', hb0, hb1, hbz, -, -⟩
  · exact h' ▸ ⟨hw0, hlen, hp0, hplt, hz⟩
  · subst h'
    have hwpos : 0 < s.window := by omega
    obtain ⟨p, hp⟩ : ∃ p : Nat, s.valPos = (p : Int) :=
      ⟨s.valPos.toNat, (Int.toNat_of_nonneg hp0).symm⟩
    obtain ⟨w, hw⟩ : ∃ w : Nat, s.window = (w : Int) :=
      ⟨s.window.toNat, (Int.toNat_of_nonneg hw0).symm⟩
    have hwn : 0 < w := by omega
    have htm : (s.valPos + 1).tmod s.window = (((p + 1) % w : Nat) : Int) := by
      rw [hp, hw]
      exact_mod_cast tmod_natCast (p + 1) w
    refine ⟨by simpa using hw0, by simp [hlen], ?_, ?_, ?_⟩
    · show 0 ≤ (s.valPos + 1).tmod s.window
      rw [htm]; positivity
    · intro _
      show (s.valPos + 1).tmod s.window < s.window
      rw [htm, hw]
      exact_mod_cast Nat.mod_lt _ hwn
    · intro hc; exact absurd hc (by simpa using hbz)

theorem Add_WF {s : movingStats} {vs : List F64} {s' : movingStats}
    (hwf : WF s) (h : movingStats.Add s vs = some s') : WF s' := by
  induction vs generalizing s with
  | nil => cases h; exact hwf
  | cons v vs ih =>
    unfold movingStats.Add at h
    split at h
    · exact absurd h (by simp)
    · exact ih (addOne_WF hwf (by assumption)) h

theorem addOne_frame {s : movingStats} {v : F64} {s' : movingStats}
    (h : movingStats.addOne s v = some s') :
    s'.window = s.window ∧ s'.ignoreNanValues = s.ignoreNanValues ∧
      s'.ignoreInfValues = s.ignoreInfValues ∧ s'.values.length = s.values.length := by
  rcases addOne_some_elim h with h' | ⟨h', -, -, -, -, -⟩ <;> subst h' <;> simp

theorem Add_frame {s : movingStats} {vs : List F64} {s' : movingStats}
    (h : movingStats.Add s vs = some s') :
    s'.window = s.window ∧ s'.ignoreNanValues = s.ignoreNanValues ∧
      s'.ignoreInfValues = s.ignoreInfValues := by
  induction vs generalizing s with
  | nil => cases h; exact ⟨rfl, rfl, rfl⟩
  | cons v vs ih =>
    unfold movingStats.Add at h
    split at h
    · exact absurd h (by simp)
    · obtain ⟨h1, h2, h3, -⟩ := addOne_frame (by assumption)
      obtain ⟨g1, g2, g3⟩ := ih h
      exact ⟨h1 ▸ g1, h2 ▸ g2, h3 ▸ g3⟩

theorem addOne_filled_mono {s : movingStats} {v : F64} {s' : movingStats}
    (h : movingStats.addOne s v = some s') (hf : s.slotsFilled = true) :
    s'.slotsFilled = true := by
  rcases addOne_some_elim h with h' | ⟨h', -, -, -, -, -⟩ <;> subst h' <;> simp [hf]

theorem Add_filled_mono {s : movingStats} {vs : List F64} {s' : movingStats}
    (h : movingStats.Add s vs = some s') (hf : s.slotsFilled = true) :
    s'.slotsFilled = true := by
  induction vs generalizing s with
  | nil => cases h; exact hf
  | cons v vs ih =>
    unfold movingStats.Add at h
    split at h
    · exact absurd h (by simp)
    · exact ih h (addOne_filled_mono (by assumption) hf)

theorem Add_cons (s : movingStats) (v : F64) (vs : List F64) :
    movingStats.Add s (v :: vs) =
      (movingStats.addOne s v).bind fun s2 => movingStats.Add s2 vs := by
  cases h : movingStats.addOne s v <;> simp [movingStats.Add, h]

theorem Add_append (s : movingStats) (as bs : List F64) :
    movingStats.Add s (as ++ bs) =
      (movingStats.Add s as).bind fun s2 => movingStats.Add s2 bs := by
  induction as generalizing s with
  | nil => rfl
  | cons v vs ih =>
    rw [List.cons_append, Add_cons, Add_cons]
    cases movingStats.addOne s v with
    | none => rfl
    | some s2 => simpa using ih s2

theorem filledValues_of_filled {s : movingStats} (hwf : WF s)
    (hf : s.slotsFilled = true) :
    movingStats.filledValues s = some s.values ∧ 1 ≤ s.values.length := by
  obtain ⟨hw0, hlen, -, -, hz⟩ := hwf
  have hwne : s.window ≠ 0 := fun hc => by simp [(hz hc).2] at hf
  have hwpos : 0 < s.window := by omega
  have hcast : ((s.values.length : Int)) = s.window := by
    rw [hlen, Int.toNat_of_nonneg hw0]
  constructor
  · unfold movingStats.filledValues goSliceTo
    rw [if_neg (by simp [hf])]
    rw [if_pos (by constructor <;> omega)]
    congr 1
    have : (s.window - 1 + 1).toNat = s.values.length := by omega
    rw [this, List.take_length]
  · omega

theorem filledValues_of_unfilled {s : movingStats} (hwf : WF s)
    (hf : s.slotsFilled = false) :
    movingStats.filledValues s = some (s.values.take s.valPos.toNat) := by
  obtain ⟨hw0, hlen, hp0, hplt, hz⟩ := hwf
  unfold movingStats.filledValues goSliceTo
  rw [if_pos (by simp [hf])]
  by_cases hp : s.valPos - 1 < 0
  · rw [if_pos hp]
    have : s.valPos = 0 := by omega
    simp [this]
  · rw [if_neg hp]
    have hple : s.valPos ≤ (s.values.length : Int) := by
      rcases Int.lt_or_le 0 s.window with hwpos | hwnonpos
      · have := hplt hwpos
        rw [hlen, Int.toNat_of_nonneg hw0]; omega
      · have hweq : s.window = 0 := by omega
        obtain ⟨hp00, -⟩ := hz hweq
        omega
    rw [if_pos (by constructor <;> omega)]
    congr 2
    omega

theorem Count_of_WF {s : movingStats} (hwf : WF s) :
    movingStats.Count s =
      some (if s.slotsFilled then s.values.length else s.valPos.toNat) := by
  by_cases hf : s.slotsFilled
  · obtain ⟨h1, -⟩ := filledValues_of_filled hwf hf
    simp [movingStats.Count, h1, hf]
  · have h1 := filledValues_of_unfilled hwf (by simpa using hf)
    have hlen : (s.values.take s.valPos.toNat).length = s.valPos.toNat := by
      obtain ⟨hw0, hlen, hp0, hplt, hz⟩ := hwf
      rw [List.length_take]
      rcases Int.lt_or_le 0 s.window with hwpos | hwnonpos
      · have h2 := hplt hwpos
        have : s.valPos.toNat ≤ s.values.length := by rw [hlen]; omega
        omega
      · have hweq : s.window = 0 := by omega
        obtain ⟨hp00, -⟩ := hz hweq
        simp [hp00]
    simp [movingStats.Count, h1, hf, hlen]

/-! ### Characterization of a run from a fresh store

The state after feeding an argument list into a fresh store is described
in closed form: the accepted (non-filtered) values are written round
robin into the `w` ring slots, so slot `i` holds the value at index
`writeIdx` of the padded history `replicate w 0 ++ accepted`. -/

/-- Whether `Add` accepts a value (it passes both filters). -/
def acceptedF (ignN ignI : Bool) (v : F64) : Bool :=
  !(ignN && v.isNaN) && !(ignI && v.isInf)

/-- The subsequence of an `Add` argument list that passes the filters. -/
def acceptedVals (ignN ignI : Bool) (vs : List F64) : List F64 :=
  vs.filter (acceptedF ignN ignI)

/-- Index, inside the padded history (`w` initial zeros followed by the
accepted values, `N` entries in total), of the last write into ring slot
`i`. -/
def writeIdx (N w i : Nat) : Nat :=
  if i < N % w then N - N % w + i else N - N % w + i - w

/-- The ring buffer contents after feeding accepted values `as` into a
fresh store of window `w`. -/
def buildBuf (w : Nat) (as : List F64) : List F64 :=
  (List.range w).map fun i =>
    (List.replicate w (F64.finite 0) ++ as).getD (writeIdx (w + as.length) w i) F64.nan

/-- The whole state after feeding `vs` into a fresh store of window `w`. -/
def runState (w : Nat) (ignN ignI : Bool) (vs : List F64) : movingStats :=
  { window := (w : Int)
    values := buildBuf w (acceptedVals ignN ignI vs)
    valPos := (((acceptedVals ignN ignI vs).length % w : Nat) : Int)
    slotsFilled := decide (w ≤ (acceptedVals ignN ignI vs).length)
    ignoreNanValues := ignN
    ignoreInfValues := ignI }

theorem runState_window (w : Nat) (ignN ignI : Bool) (vs : List F64) :
    (runState w ignN ignI vs).window = (w : Int) := rfl

theorem runState_values (w : Nat) (ignN ignI : Bool) (vs : List F64) :
    (runState w ignN ignI vs).values = buildBuf w (acceptedVals ignN ignI vs) := rfl

theorem runState_valPos (w : Nat) (ignN ignI : Bool) (vs : List F64) :
    (runState w ignN ignI vs).valPos =
      (((acceptedVals ignN ignI vs).length % w : Nat) : Int) := rfl

theorem runState_filled (w : Nat) (ignN ignI : Bool) (vs : List F64) :
    (runState w ignN ignI vs).slotsFilled =
      decide (w ≤ (acceptedVals ignN ignI vs).length) := rfl

theorem runState_flagN (w : Nat) (ignN ignI : Bool) (vs : List F64) :
    (runState w ignN ignI vs).ignoreNanValues = ignN := rfl

theorem runState_flagI (w : Nat) (ignN ignI : Bool) (vs : List F64) :
    (runState w ignN ignI vs).ignoreInfValues = ignI := rfl

theorem buildBuf_length (w : Nat) (as : List F64) : (buildBuf w as).length = w := by
  simp [buildBuf]

theorem buildBuf_getD (w : Nat) (as : List F64) (i : Nat) (h : i < w) :
    (buildBuf w as).getD i F64.nan =
      (List.replicate w (F64.finite 0) ++ as).getD (writeIdx (w + as.length) w i)
        F64.nan := by
  unfold buildBuf
  rw [List.getD_eq_getElem?_getD, List.getElem?_map, List.getElem?_range h]
  rfl

theorem buildBuf_nil (w : Nat) : buildBuf w [] = List.replicate w (F64.finite 0) := by
  apply eq_of_getD _ _ F64.nan
  · simp [buildBuf_length]
  · intro i hi
    rw [buildBuf_length] at hi
    rw [buildBuf_getD _ _ _ hi]
    have hidx : writeIdx (w + ([] : List F64).length) w i = i := by
      unfold writeIdx
      rw [List.length_nil, Nat.add_zero, Nat.mod_self]
      rw [if_neg (by omega)]
      omega
    rw [hidx, List.append_nil]

theorem runState_nil (w : Nat) (hw : 1 ≤ w) (ignN ignI : Bool) :
    runState w ignN ignI [] = fresh w ignN ignI := by
  unfold runState fresh acceptedVals
  have h0 : ¬ (w ≤ 0) := by omega
  simp only [List.filter_nil, List.length_nil, Nat.zero_mod, Nat.cast_zero,
    buildBuf_nil, movingStats.mk.injEq]
  simp [h0]

theorem tmod_succ_mod (n w : Nat) :
    ((((n % w : Nat) : Int)) + 1).tmod (w : Int) = (((n + 1) % w : Nat) : Int) := by
  have h1 : (((n % w : Nat) : Int) + 1) = (((n % w + 1 : Nat)) : Int) := by push_cast; ring
  rw [h1, tmod_natCast, Nat.mod_add_mod]

theorem movingStats_ext {a b : movingStats} (h1 : a.window = b.window)
    (h2 : a.values = b.values) (h3 : a.valPos = b.valPos)
    (h4 : a.slotsFilled = b.slotsFilled)
    (h5 : a.ignoreNanValues = b.ignoreNanValues)
    (h6 : a.ignoreInfValues = b.ignoreInfValues) : a = b := by
  cases a; cases b; simp_all

theorem filled_flag_step (n w : Nat) :
    (decide (w ≤ n) || decide (((((n % w : Nat) : Int)) + 1).tmod (w : Int) = 0))
      = decide (w ≤ n + 1) := by
  rw [tmod_succ_mod n w]
  by_cases h1 : w ≤ n
  · have h2 : w ≤ n + 1 := by omega
    simp [h1, h2]
  · by_cases h2 : n + 1 = w
    · have hm : (n + 1) % w = 0 := by rw [h2, Nat.mod_self]
      have h3 : w ≤ n + 1 := by omega
      simp [h1, hm, h3]
    · have hm : (n + 1) % w = n + 1 := Nat.mod_eq_of_lt (by omega)
      have h3 : ¬ (w ≤ n + 1) := by omega
      simp [h1, hm, h3]
      omega

theorem buildBuf_set_step (w : Nat) (hw : 1 ≤ w) (as : List F64) (v : F64) :
    (buildBuf w as).set (as.length % w) v = buildBuf w (as ++ [v]) := by
  have hr : as.length % w < w := Nat.mod_lt _ (by omega)
  have hNmod : (w + as.length) % w = as.length % w := Nat.add_mod_left w as.length
  have hpadlen : (List.replicate w (F64.finite 0) ++ as).length = w + as.length := by
    simp
  obtain ⟨t, ht⟩ : ∃ t, w * ((w + as.length) / w) = t := ⟨_, rfl⟩
  have hrep : w + as.length = t + as.length % w := by
    conv_lhs => rw [← Nat.div_add_mod (w + as.length) w]
    rw [ht, hNmod]
  apply eq_of_getD _ _ F64.nan
  · rw [List.length_set, buildBuf_length, buildBuf_length]
  · intro i hi
    rw [List.length_set, buildBuf_length] at hi
    have hlen1 : (as ++ [v]).length = as.length + 1 := by simp
    have hN1 : w + (as ++ [v]).length = (w + as.length) + 1 := by rw [hlen1]; omega
    have hmodcase :
        ((w + as.length) + 1) % w = as.length % w + 1 ∨
          (as.length % w + 1 = w ∧ ((w + as.length) + 1) % w = 0) := by
      by_cases hc : as.length % w + 1 < w
      · left
        exact (divmod_unique _ w ((w + as.length) / w) (as.length % w + 1)
          (by omega) hc (by rw [ht]; omega)).2
      · right
        refine ⟨by omega, ?_⟩
        exact (divmod_unique _ w ((w + as.length) / w + 1) 0
          (by omega) (by omega) (by rw [Nat.mul_succ, ht]; omega)).2
    by_cases hir : i = as.length % w
    · subst hir
      rw [getD_set_self _ _ _ _ (by rw [buildBuf_length]; exact hr)]
      rw [buildBuf_getD _ _ _ hi, hN1]
      have hidx : writeIdx ((w + as.length) + 1) w (as.length % w) = w + as.length := by
        unfold writeIdx
        rcases hmodcase with hA | ⟨hB1, hB2⟩
        · rw [hA, if_pos (by omega)]
          omega
        · rw [hB2, if_neg (by omega)]
          omega
      rw [hidx, ← List.append_assoc, ← hpadlen, getD_snoc_length]
    · rw [getD_set_ne _ _ _ _ _ (fun hc => hir hc.symm)]
      rw [buildBuf_getD _ _ _ hi, buildBuf_getD _ _ _ hi, hN1]
      have hidx : writeIdx ((w + as.length) + 1) w i = writeIdx (w + as.length) w i := by
        unfold writeIdx
        rw [hNmod]
        rcases hmodcase with hA | ⟨hB1, hB2⟩
        · rw [hA]
          by_cases hc : i < as.length % w
          · rw [if_pos hc, if_pos (by omega)]
            omega
          · rw [if_neg hc, if_neg (by omega)]
            omega
        · rw [hB2]
          have hc : i < as.length % w := by omega
          rw [if_pos hc, if_neg (by omega)]
          omega
      have hlt : writeIdx (w + as.length) w i < w + as.length := by
        unfold writeIdx
        rw [hNmod]
        by_cases hc : i < as.length % w
        · rw [if_pos hc]; omega
        · rw [if_neg hc]; omega
      have hR : ((List.replicate w (F64.finite 0) ++ as) ++ [v]).getD
            (writeIdx (w + as.length) w i) F64.nan
          = (List.replicate w (F64.finite 0) ++ as).getD
            (writeIdx (w + as.length) w i) F64.nan :=
        List.getD_append _ _ _ _ (by rw [hpadlen]; exact hlt)
      rw [hidx, ← List.append_assoc, hR]

theorem Add_single (s : movingStats) (v : F64) :
    movingStats.Add s [v] = movingStats.addOne s v := by
  cases h : movingStats.addOne s v <;> simp [Add_cons, movingStats.Add, h]

theorem Add_fresh_eq (w : Nat) (hw : 1 ≤ w) (ignN ignI : Bool) (vs : List F64) :
    movingStats.Add (fresh w ignN ignI) vs = some (runState w ignN ignI vs) := by
  induction vs using List.reverseRecOn with
  | nil => rw [runState_nil w hw]; rfl
  | append_singleton vs v ih =>
    rw [Add_append, ih]
    show movingStats.Add (runState w ignN ignI vs) [v] = _
    rw [Add_single]
    cases hacc : acceptedF ignN ignI v with
    | false =>
      have hAv : acceptedVals ignN ignI (vs ++ [v]) = acceptedVals ignN ignI vs := by
        simp [acceptedVals, List.filter_append, hacc]
      have hrw : runState w ignN ignI (vs ++ [v]) = runState w ignN ignI vs := by
        unfold runState
        rw [hAv]
      rw [hrw]
      have hsk : (ignN && v.isNaN) = true ∨
          ((ignN && v.isNaN) = false ∧ (ignI && v.isInf) = true) := by
        unfold acceptedF at hacc
        cases h1 : (ignN && v.isNaN) <;> cases h2 : (ignI && v.isInf) <;> simp_all
      unfold movingStats.addOne
      rcases hsk with h1 | ⟨h1, h2⟩
      · rw [if_pos (by rw [runState_flagN]; simp [h1])]
      · rw [if_neg (by rw [runState_flagN]; simp [h1]),
          if_pos (by rw [runState_flagI]; simp [h2])]
    | true =>
      have hAv : acceptedVals ignN ignI (vs ++ [v]) = acceptedVals ignN ignI vs ++ [v] := by
        simp [acceptedVals, List.filter_append, hacc]
      have h1 : (ignN && v.isNaN) = false := by
        unfold acceptedF at hacc
        cases h : (ignN && v.isNaN) <;> simp_all
      have h2 : (ignI && v.isInf) = false := by
        unfold acceptedF at hacc
        cases h : (ignI && v.isInf) <;> simp_all
      have hw0 : 0 < w := hw
      have hbnd : 0 ≤ (runState w ignN ignI vs).valPos ∧
          (runState w ignN ignI vs).valPos <
            (((runState w ignN ignI vs).values.length : Nat) : Int) := by
        rw [runState_valPos, runState_values, buildBuf_length]
        exact ⟨by positivity, by exact_mod_cast Nat.mod_lt _ hw0⟩
      have hwnz : ¬ ((runState w ignN ignI vs).window = 0) := by
        rw [runState_window]
        intro hc
        have : w = 0 := by exact_mod_cast hc
        omega
      unfold movingStats.addOne
      rw [if_neg (by rw [runState_flagN]; simp [h1]),
        if_neg (by rw [runState_flagI]; simp [h2]),
        if_pos hbnd, if_neg hwnz]
      refine congrArg some (movingStats_ext ?_ ?_ ?_ ?_ ?_ ?_)
      · show (runState w ignN ignI vs).window = (runState w ignN ignI (vs ++ [v])).window
        rw [runState_window, runState_window]
      · show (runState w ignN ignI vs).values.set
            (runState w ignN ignI vs).valPos.toNat v
          = (runState w ignN ignI (vs ++ [v])).values
        rw [runState_values, runState_valPos, runState_values, hAv, Int.toNat_natCast]
        exact buildBuf_set_step w hw (acceptedVals ignN ignI vs) v
      · show ((runState w ignN ignI vs).valPos + 1).tmod (runState w ignN ignI vs).window
          = (runState w ignN ignI (vs ++ [v])).valPos
        rw [runState_valPos, runState_window, runState_valPos, hAv, tmod_succ_mod]
        simp
      · show ((runState w ignN ignI vs).slotsFilled ||
            decide (((runState w ignN ignI vs).valPos + 1).tmod
              (runState w ignN ignI vs).window = 0))
          = (runState w ignN ignI (vs ++ [v])).slotsFilled
        rw [runState_filled, runState_valPos, runState_window, runState_filled, hAv,
          List.length_append, List.length_singleton]
        exact filled_flag_step (acceptedVals ignN ignI vs).length w
      · show (runState w ignN ignI vs).ignoreNanValues
          = (runState w ignN ignI (vs ++ [v])).ignoreNanValues
        rw [runState_flagN, runState_flagN]
      · show (runState w ignN ignI vs).ignoreInfValues
          = (runState w ignN ignI (vs ++ [v])).ignoreInfValues
        rw [runState_flagI, runState_flagI]

theorem buildBuf_decomp (w : Nat) (hw : 1 ≤ w) (as : List F64)
    (hn : w ≤ as.length) :
    buildBuf w as =
      as.drop (as.length - as.length % w) ++
        (as.drop (as.length - w)).take (w - as.length % w) := by
  have hr : as.length % w < w := Nat.mod_lt _ (by omega)
  have hrn : as.length % w ≤ as.length := Nat.mod_le _ _
  have hNmod : (w + as.length) % w = as.length % w := Nat.add_mod_left w as.length
  have hpadlen : (List.replicate w (F64.finite 0) ++ as).length = w + as.length := by
    simp
  apply eq_of_getD _ _ F64.nan
  · rw [buildBuf_length, List.length_append, List.length_drop, List.length_take,
      List.length_drop]
    omega
  · intro i hi
    rw [buildBuf_length] at hi
    rw [buildBuf_getD _ _ _ hi]
    unfold writeIdx
    rw [hNmod]
    by_cases hc : i < as.length % w
    · rw [if_pos hc]
      have hge : w ≤ w + as.length - as.length % w + i := by omega
      rw [List.getD_append_right _ _ _ _ (by rw [List.length_replicate]; exact hge),
        List.length_replicate]
      rw [List.getD_append _ _ _ _
        (by rw [List.length_drop]; omega)]
      rw [getD_drop']
      congr 1
      omega
    · rw [if_neg hc]
      have hge : w ≤ w + as.length - as.length % w + i - w := by omega
      rw [List.getD_append_right _ _ _ _ (by rw [List.length_replicate]; exact hge),
        List.length_replicate]
      rw [List.getD_append_right _ _ _ _ (by rw [List.length_drop]; omega),
        List.length_drop]
      rw [getD_take_lt _ _ _ _ (by omega)]
      rw [getD_drop']
      congr 1
      omega

theorem buildBuf_perm (w : Nat) (hw : 1 ≤ w) (as : List F64)
    (hn : w ≤ as.length) :
    (buildBuf w as).Perm (as.drop (as.length - w)) := by
  rw [buildBuf_decomp w hw as hn]
  have h1 : (as.drop (as.length - w)).drop (w - as.length % w)
      = as.drop (as.length - as.length % w) := by
    rw [List.drop_drop]
    congr 1
    have hr : as.length % w < w := Nat.mod_lt _ (by omega)
    omega
  conv_rhs => rw [← List.take_append_drop (w - as.length % w) (as.drop (as.length - w))]
  rw [h1]
  exact List.perm_append_comm

theorem mem_set_cases {α : Type u} :
    ∀ (l : List α) (i : Nat) (v x : α), x ∈ l.set i v → x = v ∨ x ∈ l
  | [], _, _, x, h => absurd h (List.not_mem_nil x)
  | y :: ys, 0, v, x, h => by
    rcases List.mem_cons.mp h with h | h
    · exact Or.inl h
    · exact Or.inr (List.mem_cons_of_mem _ h)
  | y :: ys, i + 1, v, x, h => by
    rcases List.mem_cons.mp h with h | h
    · exact Or.inr (h ▸ List.mem_cons_self _ _)
    · rcases mem_set_cases ys i v x h with h | h
      · exact Or.inl h
      · exact Or.inr (List.mem_cons_of_mem _ h)

theorem Add_noNaN {s : movingStats} {vs : List F64} {s' : movingStats}
    (hflag : s.ignoreNanValues = true)
    (hinv : ∀ x ∈ s.values, x.isNaN = false)
    (h : movingStats.Add s vs = some s') :
    s'.ignoreNanValues = true ∧ ∀ x ∈ s'.values, x.isNaN = false := by
  induction vs generalizing s with
  | nil => cases h; exact ⟨hflag, hinv⟩
  | cons v vs ih =>
    rw [Add_cons] at h
    cases ha : movingStats.addOne s v with
    | none => rw [ha] at h; exact absurd h (by simp)
    | some s2 =>
      rw [ha] at h
      simp only [Option.some_bind] at h
      refine ih ?_ ?_ h
      · exact (addOne_frame ha).2.1.trans hflag
      · rcases addOne_some_elim ha with h' | ⟨h', -, -, -, hg1, -⟩
        · subst h'; exact hinv
        · subst h'
          intro x hx
          simp only at hx
          rcases mem_set_cases _ _ _ _ hx with hxv | hxm
          · subst hxv
            rw [hflag] at hg1
            simpa using hg1
          · exact hinv x hxm

theorem filledValues_subset {s : movingStats} {l : List F64}
    (h : movingStats.filledValues s = some l) : l ⊆ s.values := by
  unfold movingStats.filledValues goSliceTo at h
  split at h
  · split at h
    · cases h
      exact List.nil_subset _
    · split at h
      · cases h
        exact List.take_subset _ _
      · exact absurd h (by simp)
  · split at h
    · cases h
      exact List.take_subset _ _
    · exact absurd h (by simp)

theorem map_const_some {β : Type} {o : Option β} {s s' : movingStats}
    (h : o.map (fun _ => s) = some s') : s' = s := by
  cases o <;> simp_all

end MovingAverage

namespace MovingAverage

/-! ### The claims -/

/-- C1: for every store with capacity `w ≥ 1` and more than `w` accepted
(non-filtered) `Add` values, `Count()` returns `w`, `SlotsFilled()`
returns `true`, and the live slice exposed by `Values()` equals, as a
multiset, the most recent `w` accepted values; in particular with window
4 and adds 10,2,4,6,8 the live slice is `[8,2,4,6]` and `Avg()` returns
`5.0`. -/
theorem claim_C1 :
    (∀ (w : Nat) (ignN ignI : Bool) (vs : List F64), 1 ≤ w →
      w < (acceptedVals ignN ignI vs).length →
      ∃ s, movingStats.Add (fresh w ignN ignI) vs = some s ∧
        movingStats.Count s = some w ∧
        movingStats.SlotsFilled s = true ∧
        ∃ l, movingStats.Values s = some l ∧
          (l : Multiset F64) =
            ((acceptedVals ignN ignI vs).drop
              ((acceptedVals ignN ignI vs).length - w) : Multiset F64)) ∧
    ((movingStats.Add (fresh 4 false false)
        [F64.finite 10, F64.finite 2, F64.finite 4, F64.finite 6, F64.finite 8]).bind
          movingStats.Values
        = some [F64.finite 8, F64.finite 2, F64.finite 4, F64.finite 6] ∧
      (movingStats.Add (fresh 4 false false)
        [F64.finite 10, F64.finite 2, F64.finite 4, F64.finite 6, F64.finite 8]).bind
          movingStats.Avg = some (F64.finite 5)) := by
  constructor
  · intro w ignN ignI vs hw hn
    refine ⟨runState w ignN ignI vs, Add_fresh_eq w hw ignN ignI vs, ?_, ?_, ?_⟩
    all_goals
      have hwf : WF (runState w ignN ignI vs) :=
        Add_WF (WF_fresh w ignN ignI) (Add_fresh_eq w hw ignN ignI vs)
    all_goals
      have hfill : (runState w ignN ignI vs).slotsFilled = true := by
        rw [runState_filled]; exact decide_eq_true (by omega)
    all_goals
      obtain ⟨hfv, -⟩ := filledValues_of_filled hwf hfill
    · simp [movingStats.Count, hfv, runState_values, buildBuf_length]
    · exact hfill
    · refine ⟨(runState w ignN ignI vs).values, ?_, ?_⟩
      · simp [movingStats.Values, hfv]
      · rw [runState_values, Multiset.coe_eq_coe]
        exact buildBuf_perm w hw _ (le_of_lt hn)
  · exact ⟨by decide, by decide⟩

/-- Witness for C1: window 2, adds 1,2,3 (three accepted values, more
than the window). -/
theorem claim_C1_witness :
    (1 ≤ 2 ∧
      2 < (acceptedVals false false
        [F64.finite 1, F64.finite 2, F64.finite 3]).length) ∧
    (∃ s, movingStats.Add (fresh 2 false false)
        [F64.finite 1, F64.finite 2, F64.finite 3] = some s ∧
      movingStats.Count s = some 2 ∧
      movingStats.SlotsFilled s = true ∧
      ∃ l, movingStats.Values s = some l ∧
        (l : Multiset F64) =
          ((acceptedVals false false
              [F64.finite 1, F64.finite 2, F64.finite 3]).drop
            ((acceptedVals false false
              [F64.finite 1, F64.finite 2, F64.finite 3]).length - 2) :
            Multiset F64)) :=
  ⟨⟨by decide, by decide⟩,
    claim_C1.1 2 false false [F64.finite 1, F64.finite 2, F64.finite 3]
      (by decide) (by decide)⟩

/-- C2 counterexample: with window 5 and exactly five accepted adds
(count ≤ capacity), `SlotsFilled()` returns `true`, not `false` as the
claim states. -/
theorem claim_C2_cex :
    (acceptedVals false false
      [F64.finite 10, F64.finite 20, F64.finite 30, F64.finite 40,
        F64.finite 50]).length ≤ 5 ∧
    (movingStats.Add (fresh 5 false false)
      [F64.finite 10, F64.finite 20, F64.finite 30, F64.finite 40,
        F64.finite 50]).map movingStats.SlotsFilled = some true := by
  exact ⟨by decide, by decide⟩

/-- C2 (amended): with `n ≤ w` accepted values, `Count()` returns `n`,
and `SlotsFilled()` returns `true` exactly when `n = w` (the original
claim said it is always `false`; the code and the repository's own test
set it once the cursor wraps, i.e. already at `n = w`).  Scenario B
(window 5; add 10,20) is unchanged. -/
theorem claim_C2 :
    (∀ (w : Nat) (ignN ignI : Bool) (vs : List F64), 1 ≤ w →
      (acceptedVals ignN ignI vs).length ≤ w →
      ∃ s, movingStats.Add (fresh w ignN ignI) vs = some s ∧
        movingStats.Count s = some (acceptedVals ignN ignI vs).length ∧
        movingStats.SlotsFilled s =
          decide ((acceptedVals ignN ignI vs).length = w)) ∧
    ((movingStats.Add (fresh 5 false false)
        [F64.finite 10, F64.finite 20]).bind movingStats.Avg
        = some (F64.finite 15) ∧
      (movingStats.Add (fresh 5 false false)
        [F64.finite 10, F64.finite 20]).bind movingStats.Count = some 2 ∧
      (movingStats.Add (fresh 5 false false)
        [F64.finite 10, F64.finite 20]).map movingStats.SlotsFilled
        = some false) := by
  constructor
  · intro w ignN ignI vs hw hn
    refine ⟨runState w ignN ignI vs, Add_fresh_eq w hw ignN ignI vs, ?_, ?_⟩
    all_goals
      have hwf : WF (runState w ignN ignI vs) :=
        Add_WF (WF_fresh w ignN ignI) (Add_fresh_eq w hw ignN ignI vs)
    all_goals by_cases heq : (acceptedVals ignN ignI vs).length = w
    · have hfill : (runState w ignN ignI vs).slotsFilled = true := by
        rw [runState_filled]; exact decide_eq_true (by omega)
      obtain ⟨hfv, -⟩ := filledValues_of_filled hwf hfill
      simp [movingStats.Count, hfv, runState_values, buildBuf_length, heq]
    · have hfill : (runState w ignN ignI vs).slotsFilled = false := by
        rw [runState_filled]; exact decide_eq_false (by omega)
      have hfv := filledValues_of_unfilled hwf hfill
      have hlt : (acceptedVals ignN ignI vs).length < w := by omega
      have hL : ((runState w ignN ignI vs).values.take
          (runState w ignN ignI vs).valPos.toNat).length
          = (acceptedVals ignN ignI vs).length := by
        rw [runState_values, runState_valPos, Int.toNat_natCast,
          Nat.mod_eq_of_lt hlt, List.length_take, buildBuf_length]
        omega
      simp [movingStats.Count, hfv, hL]
    · have hfill : (runState w ignN ignI vs).slotsFilled = true := by
        rw [runState_filled]; exact decide_eq_true (by omega)
      show (runState w ignN ignI vs).slotsFilled = _
      rw [hfill]
      exact (decide_eq_true heq).symm
    · have hfill : (runState w ignN ignI vs).slotsFilled = false := by
        rw [runState_filled]; exact decide_eq_false (by omega)
      show (runState w ignN ignI vs).slotsFilled = _
      rw [hfill]
      exact (decide_eq_false heq).symm
  · exact ⟨by decide, by decide, by decide⟩

/-- Witness for C2: window 5, adds 10,20 (scenario B). -/
theorem claim_C2_witness :
    (1 ≤ 5 ∧
      (acceptedVals false false [F64.finite 10, F64.finite 20]).length ≤ 5) ∧
    (∃ s, movingStats.Add (fresh 5 false false)
        [F64.finite 10, F64.finite 20] = some s ∧
      movingStats.Count s =
        some (acceptedVals false false [F64.finite 10, F64.finite 20]).length ∧
      movingStats.SlotsFilled s =
        decide ((acceptedVals false false
          [F64.finite 10, F64.finite 20]).length = 5)) :=
  ⟨⟨by decide, by decide⟩,
    claim_C2.1 5 false false [F64.finite 10, F64.finite 20]
      (by decide) (by decide)⟩

end MovingAverage

namespace MovingAverage

/-- C3: on every reachable store whose live slice is empty (in
particular a freshly constructed store), `Avg()`, `Median()`, `Min()`
and `Max()` all return `0.0` without panicking, `Count()` returns 0 and
`SlotsFilled()` returns `false`. -/
theorem claim_C3 :
    (∀ (opts : Options) (s0 : movingStats) (vs : List F64) (s : movingStats),
      New opts = some s0 → movingStats.Add s0 vs = some s →
      movingStats.filledValues s = some [] →
      movingStats.Avg s = some (F64.finite 0) ∧
      movingStats.Median s = some (F64.finite 0) ∧
      movingStats.Min s = some (F64.finite 0) ∧
      movingStats.Max s = some (F64.finite 0) ∧
      movingStats.Count s = some 0 ∧
      movingStats.SlotsFilled s = false) ∧
    (∀ (opts : Options) (s0 : movingStats), New opts = some s0 →
      movingStats.filledValues s0 = some []) := by
  constructor
  · intro opts s0 vs s hNew hAdd hfv
    refine ⟨?_, ?_, ?_, ?_, ?_, ?_⟩
    · simp [movingStats.Avg, hfv, statsMean]
    · simp [movingStats.Median, hfv, statsMedian, sortF64]
    · simp [movingStats.Min, hfv, statsMin]
    · simp [movingStats.Max, hfv, statsMax]
    · simp [movingStats.Count, hfv]
    · have hwf : WF s := Add_WF (WF_New opts s0 hNew) hAdd
      by_cases hf : s.slotsFilled = true
      · obtain ⟨hfv2, hlen⟩ := filledValues_of_filled hwf hf
        rw [hfv] at hfv2
        have : s.values = [] := by
          have := Option.some.inj hfv2
          exact this.symm
        rw [this] at hlen
        simp at hlen
      · show s.slotsFilled = false
        simpa using hf
  · intro opts s0 hNew
    unfold New at hNew
    split at hNew
    · exact absurd hNew (by simp)
    · cases hNew
      rfl

/-- Witness for C3: a fresh store with window 5 and no adds. -/
theorem claim_C3_witness :
    (New { IgnoreNanValues := false, IgnoreInfValues := false, Window := 5 }
        = some (fresh 5 false false) ∧
      movingStats.Add (fresh 5 false false) [] = some (fresh 5 false false) ∧
      movingStats.filledValues (fresh 5 false false) = some []) ∧
    (movingStats.Avg (fresh 5 false false) = some (F64.finite 0) ∧
      movingStats.Median (fresh 5 false false) = some (F64.finite 0) ∧
      movingStats.Min (fresh 5 false false) = some (F64.finite 0) ∧
      movingStats.Max (fresh 5 false false) = some (F64.finite 0) ∧
      movingStats.Count (fresh 5 false false) = some 0 ∧
      movingStats.SlotsFilled (fresh 5 false false) = false) :=
  ⟨⟨by decide, by decide, by decide⟩,
    claim_C3.1 { IgnoreNanValues := false, IgnoreInfValues := false, Window := 5 }
      (fresh 5 false false) [] (fresh 5 false false)
      (by decide) (by decide) (by decide)⟩

/-- C4: `Add` processes each argument in order — a NaN is skipped when
`ignoreNaN` is set, an infinity is skipped when `ignoreInf` is set, and
otherwise the value is written at the cursor, which advances modulo the
capacity; consequently with `ignoreNaN = true` adding a NaN leaves the
state (hence `Count()`) unchanged and no NaN ever appears in `Values()`,
while with `ignoreNaN = false` a NaN is retained. -/
theorem claim_C4 :
    (∀ (s : movingStats) (v : F64),
      ((s.ignoreNanValues && v.isNaN) = true → movingStats.addOne s v = some s) ∧
      ((s.ignoreNanValues && v.isNaN) = false →
        (s.ignoreInfValues && v.isInf) = true → movingStats.addOne s v = some s) ∧
      ((s.ignoreNanValues && v.isNaN) = false →
        (s.ignoreInfValues && v.isInf) = false →
        0 ≤ s.valPos → s.valPos < (s.values.length : Int) → s.window ≠ 0 →
        movingStats.addOne s v = some
          { s with
            values := s.values.set s.valPos.toNat v
            valPos := (s.valPos + 1).tmod s.window
            slotsFilled := s.slotsFilled ||
              decide ((s.valPos + 1).tmod s.window = 0) })) ∧
    (∀ s : movingStats, s.ignoreNanValues = true →
      movingStats.Add s [F64.nan] = some s) ∧
    (∀ (w : Nat) (ignI : Bool) (vs : List F64) (s : movingStats) (l : List F64),
      movingStats.Add (fresh w true ignI) vs = some s →
      movingStats.Values s = some l → ∀ x ∈ l, x.isNaN = false) ∧
    ((movingStats.Add (fresh 5 false false) [F64.finite 1, F64.nan]).bind
        movingStats.Values = some [F64.finite 1, F64.nan]) := by
  refine ⟨?_, ?_, ?_, by decide⟩
  · intro s v
    refine ⟨?_, ?_, ?_⟩
    · intro h1
      unfold movingStats.addOne
      rw [if_pos h1]
    · intro h1 h2
      unfold movingStats.addOne
      rw [if_neg (by simp [h1]), if_pos h2]
    · intro h1 h2 hb0 hb1 hz
      unfold movingStats.addOne
      rw [if_neg (by simp [h1]), if_neg (by simp [h2]),
        if_pos ⟨hb0, hb1⟩, if_neg hz]
  · intro s hflag
    rw [Add_single]
    unfold movingStats.addOne
    rw [if_pos (by simp [hflag, F64.isNaN])]
  · intro w ignI vs s l hAdd hVal hx
    have hinv : ∀ x ∈ (fresh w true ignI).values, x.isNaN = false := by
      intro x hx
      have := List.eq_of_mem_replicate hx
      subst this
      rfl
    obtain ⟨-, hnoNaN⟩ := Add_noNaN rfl hinv hAdd
    have hsub : l ⊆ s.values := by
      have hmap : movingStats.Values s = movingStats.filledValues s := by
        unfold movingStats.Values
        cases movingStats.filledValues s <;> rfl
      rw [hmap] at hVal
      exact filledValues_subset hVal
    intro hxl
    exact hnoNaN hx (hsub hxl)

/-- Witness for C4: a store ignoring NaN skips an added NaN. -/
theorem claim_C4_witness :
    ((fresh 2 true false).ignoreNanValues && F64.nan.isNaN) = true ∧
    movingStats.addOne (fresh 2 true false) F64.nan = some (fresh 2 true false) :=
  ⟨by decide, (claim_C4.1 (fresh 2 true false) F64.nan).1 (by decide)⟩

end MovingAverage

namespace MovingAverage

/-- C5: `Values()` hands back a freshly allocated copy of the live
slice: in the heap model, the returned reference is distinct from the
store's buffer reference, the store is unchanged by the call, and
overwriting the returned array leaves the store — hence subsequent
`Values()`, `Avg()` and `Median()` results — unchanged. -/
theorem claim_C5 :
    ∀ (h : movingStatsRef) (m m2 : Mem) (r2 : Nat),
      h.bufRef < m.arrs.length →
      ValuesRef h m = some (m2, r2) →
      (∃ internal, movingStats.filledValues (h.toPure m) = some internal ∧
        m2.read r2 = internal) ∧
      r2 ≠ h.bufRef ∧
      h.toPure m2 = h.toPure m ∧
      (∀ junk : List F64,
        h.toPure (m2.write r2 junk) = h.toPure m ∧
        movingStats.Values (h.toPure (m2.write r2 junk))
          = movingStats.Values (h.toPure m) ∧
        movingStats.Avg (h.toPure (m2.write r2 junk))
          = movingStats.Avg (h.toPure m) ∧
        movingStats.Median (h.toPure (m2.write r2 junk))
          = movingStats.Median (h.toPure m)) := by
  intro h m m2 r2 hlt hV
  unfold ValuesRef at hV
  cases hfv : movingStats.filledValues (h.toPure m) with
  | none => rw [hfv] at hV; exact absurd hV (by simp)
  | some internal =>
    rw [hfv] at hV
    simp only [Option.map_some', Mem.alloc, Option.some.injEq, Prod.mk.injEq] at hV
    obtain ⟨hm2, hr2⟩ := hV
    subst hm2
    subst hr2
    have hne : m.arrs.length ≠ h.bufRef := by omega
    have hread2 : (Mem.mk (m.arrs ++ [internal])).read h.bufRef = m.read h.bufRef := by
      unfold Mem.read
      exact List.getD_append _ _ _ _ hlt
    have hpure2 : h.toPure (Mem.mk (m.arrs ++ [internal])) = h.toPure m := by
      unfold movingStatsRef.toPure
      rw [hread2]
    have hreadW : ∀ junk : List F64,
        ((Mem.mk (m.arrs ++ [internal])).write m.arrs.length junk).read h.bufRef
          = m.read h.bufRef := by
      intro junk
      unfold Mem.write Mem.read
      rw [getD_set_ne _ _ _ _ _ hne]
      exact List.getD_append _ _ _ _ hlt
    have hpureW : ∀ junk : List F64,
        h.toPure ((Mem.mk (m.arrs ++ [internal])).write m.arrs.length junk)
          = h.toPure m := by
      intro junk
      unfold movingStatsRef.toPure
      rw [hreadW junk]
    refine ⟨⟨internal, rfl, ?_⟩, hne, hpure2, ?_⟩
    · unfold Mem.read
      exact getD_snoc_length _ _ _
    · intro junk
      exact ⟨hpureW junk, by rw [hpureW junk], by rw [hpureW junk],
        by rw [hpureW junk]⟩

/-- Witness for C5: a one-slot heap store holding the value 1. -/
theorem claim_C5_witness :
    ((⟨1, 0, 0, true, false, false⟩ : movingStatsRef).bufRef <
        (Mem.mk [[F64.finite 1]]).arrs.length ∧
      ValuesRef ⟨1, 0, 0, true, false, false⟩ (Mem.mk [[F64.finite 1]])
        = some (Mem.mk [[F64.finite 1], [F64.finite 1]], 1)) ∧
    (1 : Nat) ≠ (⟨1, 0, 0, true, false, false⟩ : movingStatsRef).bufRef :=
  ⟨⟨by decide, by decide⟩,
    (claim_C5 ⟨1, 0, 0, true, false, false⟩ (Mem.mk [[F64.finite 1]])
      (Mem.mk [[F64.finite 1], [F64.finite 1]]) 1 (by decide) (by decide)).2.1⟩

/-- C6: `UnsafeDoStat(f)` returns exactly the (value, error) pair `f`
returns on the live slice, and `UnsafeDo(g)` returns exactly the error
`g` returns — no zero-substitution and no swallowing; in contrast, on an
empty store the collaborator's error is surfaced verbatim by
`UnsafeDoStat` while `Avg()` swallows it into `0.0`. -/
theorem claim_C6 :
    (∀ (ε : Type) (ma : movingStats) (f : List F64 → F64 × Option ε)
        (g : List F64 → Option ε) (l : List F64),
      movingStats.filledValues ma = some l →
      movingStats.UnsafeDoStat ma f = some (f l) ∧
      movingStats.UnsafeDo ma g = some (g l)) ∧
    (movingStats.UnsafeDoStat (fresh 5 false false) statsMean
        = some (F64.nan, some StatsError.emptyInput) ∧
      movingStats.Avg (fresh 5 false false) = some (F64.finite 0)) := by
  constructor
  · intro ε ma f g l hfv
    constructor
    · unfold movingStats.UnsafeDoStat
      rw [hfv]
      rfl
    · unfold movingStats.UnsafeDo
      rw [hfv]
      rfl
  · exact ⟨by decide, by decide⟩

/-- Witness for C6: the live slice of a fresh window-3 store is empty
and both unsafe runners return the reducer's result on it verbatim. -/
theorem claim_C6_witness :
    (movingStats.filledValues (fresh 3 false false) = some []) ∧
    (movingStats.UnsafeDoStat (fresh 3 false false) statsMean
        = some (statsMean []) ∧
      movingStats.UnsafeDo (fresh 3 false false)
        (fun l => (statsMean l).2 : List F64 → Option StatsError)
        = some ((statsMean []).2)) :=
  ⟨by decide,
    claim_C6.1 StatsError (fresh 3 false false) statsMean
      (fun l => (statsMean l).2) [] (by decide)⟩

/-- C7: `NewConcurrent` wraps the store built by `New` with the same
options, and every wrapper operation delegates to the wrapped bare
store and returns its result, so under single-threaded execution the two
are observationally equivalent. -/
theorem claim_C7 :
    (∀ opts : Options,
      (NewConcurrent opts).map concurrentMovingStats.ma = New opts) ∧
    (∀ (c : concurrentMovingStats) (vs : List F64),
      (concurrentMovingStats.Add c vs).map concurrentMovingStats.ma
        = movingStats.Add c.ma vs) ∧
    (∀ c : concurrentMovingStats,
      concurrentMovingStats.Window c = movingStats.Window c.ma ∧
      concurrentMovingStats.SlotsFilled c = movingStats.SlotsFilled c.ma ∧
      concurrentMovingStats.Values c = movingStats.Values c.ma ∧
      concurrentMovingStats.Count c = movingStats.Count c.ma ∧
      concurrentMovingStats.Avg c = movingStats.Avg c.ma ∧
      concurrentMovingStats.Median c = movingStats.Median c.ma ∧
      concurrentMovingStats.Min c = movingStats.Min c.ma ∧
      concurrentMovingStats.Max c = movingStats.Max c.ma) ∧
    (∀ (ε : Type) (c : concurrentMovingStats) (f : List F64 → F64 × Option ε)
        (g : List F64 → Option ε),
      concurrentMovingStats.UnsafeDoStat c f = movingStats.UnsafeDoStat c.ma f ∧
      concurrentMovingStats.UnsafeDo c g = movingStats.UnsafeDo c.ma g) := by
  refine ⟨?_, ?_, ?_, ?_⟩
  · intro opts
    cases h : New opts <;> simp [NewConcurrent, h]
  · intro c vs
    cases h : movingStats.Add c.ma vs <;> simp [concurrentMovingStats.Add, h]
  · intro c
    exact ⟨rfl, rfl, rfl, rfl, rfl, rfl, rfl, rfl⟩
  · intro ε c f g
    exact ⟨rfl, rfl⟩

/-- C8: every read operation leaves the store state unchanged, and
calling it again without an intervening `Add` yields the identical
result. -/
theorem claim_C8 :
    ∀ (s : movingStats) (op : Op), op.isRead = true →
      ∀ s' : movingStats, stepState s op = some s' →
        s' = s ∧ stepState s' op = stepState s op := by
  intro s op hop s' h
  have hs : s' = s := by
    cases op with
    | add vs => exact absurd hop (by simp [Op.isRead])
    | window => exact (Option.some.inj h).symm
    | slotsFilled => exact (Option.some.inj h).symm
    | values => exact map_const_some h
    | count => exact map_const_some h
    | avg => exact map_const_some h
    | median => exact map_const_some h
    | omin => exact map_const_some h
    | omax => exact map_const_some h
  exact ⟨hs, by rw [hs]⟩

/-- Witness for C8: reading `Avg` of a fresh window-3 store. -/
theorem claim_C8_witness :
    (Op.avg.isRead = true ∧
      stepState (fresh 3 false false) Op.avg = some (fresh 3 false false)) ∧
    ((fresh 3 false false) = (fresh 3 false false) ∧
      stepState (fresh 3 false false) Op.avg
        = stepState (fresh 3 false false) Op.avg) :=
  ⟨⟨by decide, by decide⟩,
    claim_C8 (fresh 3 false false) Op.avg (by decide) (fresh 3 false false)
      (by decide)⟩

end MovingAverage

namespace MovingAverage

/-- C9: every store reachable from a fresh store of capacity `w ≥ 1`
keeps its cursor in `[0, w)`, its buffer length and `Window()` equal to
`w`, and its `Count()` equal to `w` when filled and to the cursor
otherwise (hence at most `w` and equal to the length of `Values()`);
moreover no operation ever resets the filled flag once it is true. -/
theorem claim_C9 :
    (∀ (w : Nat) (ignN ignI : Bool) (vs : List F64) (s : movingStats), 1 ≤ w →
      movingStats.Add (fresh w ignN ignI) vs = some s →
      0 ≤ s.valPos ∧ s.valPos < (w : Int) ∧
      s.values.length = w ∧ movingStats.Window s = (w : Int) ∧
      ∃ c, movingStats.Count s = some c ∧ c ≤ w ∧
        (s.slotsFilled = true → c = w) ∧
        (s.slotsFilled = false → (c : Int) = s.valPos) ∧
        ∃ l, movingStats.Values s = some l ∧ c = l.length) ∧
    (∀ (s1 : movingStats) (op : Op) (s2 : movingStats),
      stepState s1 op = some s2 → s1.slotsFilled = true →
      s2.slotsFilled = true) := by
  constructor
  · intro w ignN ignI vs s hw hAdd
    have hwf : WF s := Add_WF (WF_fresh w ignN ignI) hAdd
    have hwin : s.window = (w : Int) := (Add_frame hAdd).1
    obtain ⟨hw0, hlen, hp0, hplt, hz⟩ := hwf
    have hwpos : 0 < s.window := by rw [hwin]; exact_mod_cast hw
    have hplt2 : s.valPos < (w : Int) := by rw [← hwin]; exact hplt hwpos
    have hlen2 : s.values.length = w := by
      rw [hlen, hwin, Int.toNat_natCast]
    refine ⟨hp0, hplt2, hlen2, hwin, ?_⟩
    have hmap : movingStats.Values s = movingStats.filledValues s := by
      unfold movingStats.Values
      cases movingStats.filledValues s <;> rfl
    by_cases hf : s.slotsFilled = true
    · obtain ⟨hfv, -⟩ := filledValues_of_filled ⟨hw0, hlen, hp0, hplt, hz⟩ hf
      refine ⟨s.values.length, ?_, by omega, fun _ => hlen2, ?_, s.values, ?_, rfl⟩
      · simp [movingStats.Count, hfv]
      · intro hc; rw [hf] at hc; exact absurd hc (by simp)
      · rw [hmap]; exact hfv
    · have hf2 : s.slotsFilled = false := by simpa using hf
      have hfv := filledValues_of_unfilled ⟨hw0, hlen, hp0, hplt, hz⟩ hf2
      have htk : (s.values.take s.valPos.toNat).length = s.valPos.toNat := by
        rw [List.length_take, hlen2]
        omega
      refine ⟨s.valPos.toNat, ?_, by omega, ?_, ?_, s.values.take s.valPos.toNat,
        ?_, htk.symm⟩
      · simp [movingStats.Count, hfv, htk]
      · intro hc; rw [hf2] at hc; exact absurd hc (by simp)
      · intro _; exact Int.toNat_of_nonneg hp0
      · rw [hmap]; exact hfv
  · intro s1 op s2 h hf
    cases op with
    | add vs => exact Add_filled_mono h hf
    | window => rw [← Option.some.inj h]; exact hf
    | slotsFilled => rw [← Option.some.inj h]; exact hf
    | values => rw [map_const_some h]; exact hf
    | count => rw [map_const_some h]; exact hf
    | avg => rw [map_const_some h]; exact hf
    | median => rw [map_const_some h]; exact hf
    | omin => rw [map_const_some h]; exact hf
    | omax => rw [map_const_some h]; exact hf

/-- Witness for C9: window 2, adds 1,2,3. -/
theorem claim_C9_witness :
    (1 ≤ 2 ∧
      movingStats.Add (fresh 2 false false)
          [F64.finite 1, F64.finite 2, F64.finite 3]
        = some (runState 2 false false
            [F64.finite 1, F64.finite 2, F64.finite 3])) ∧
    (0 ≤ (runState 2 false false
        [F64.finite 1, F64.finite 2, F64.finite 3]).valPos ∧
      (runState 2 false false
        [F64.finite 1, F64.finite 2, F64.finite 3]).valPos < (2 : Int) ∧
      (runState 2 false false
        [F64.finite 1, F64.finite 2, F64.finite 3]).values.length = 2 ∧
      movingStats.Window (runState 2 false false
        [F64.finite 1, F64.finite 2, F64.finite 3]) = (2 : Int) ∧
      ∃ c, movingStats.Count (runState 2 false false
          [F64.finite 1, F64.finite 2, F64.finite 3]) = some c ∧ c ≤ 2 ∧
        ((runState 2 false false
            [F64.finite 1, F64.finite 2, F64.finite 3]).slotsFilled = true →
          c = 2) ∧
        ((runState 2 false false
            [F64.finite 1, F64.finite 2, F64.finite 3]).slotsFilled = false →
          (c : Int) = (runState 2 false false
            [F64.finite 1, F64.finite 2, F64.finite 3]).valPos) ∧
        ∃ l, movingStats.Values (runState 2 false false
            [F64.finite 1, F64.finite 2, F64.finite 3]) = some l ∧
          c = l.length) :=
  ⟨⟨by decide, by decide⟩,
    claim_C9.1 2 false false [F64.finite 1, F64.finite 2, F64.finite 3]
      (runState 2 false false [F64.finite 1, F64.finite 2, F64.finite 3])
      (by decide) (by decide)⟩

/-- C10 counterexample: with `Window = -1` (a configuration with
`Window ≤ 0`), `New` does not succeed — `make([]float64, -1)` panics at
construction, modelled by `none` — contradicting the claim that `New`
always succeeds and returns a store for `Window ≤ 0`. -/
theorem claim_C10_cex :
    ({ IgnoreNanValues := false, IgnoreInfValues := false,
        Window := -1 } : Options).Window ≤ 0 ∧
    New { IgnoreNanValues := false, IgnoreInfValues := false, Window := -1 }
      = none := by
  exact ⟨by decide, by decide⟩

/-- C10 (amended): for `Window = 0`, `New` succeeds without reporting
any error (a zero-length buffer), any subsequent `Add` of a non-filtered
value panics (out-of-bounds write at the cursor), and the read
operations still return their empty-store results without panicking;
for `Window < 0`, `New` itself panics (`make` with a negative length),
so no store is returned. -/
theorem claim_C10 :
    (∀ opts : Options, opts.Window < 0 → New opts = none) ∧
    (∀ ignN ignI : Bool,
      New { IgnoreNanValues := ignN, IgnoreInfValues := ignI, Window := 0 }
        = some (fresh 0 ignN ignI)) ∧
    (∀ (ignN ignI : Bool) (v : F64) (vs : List F64),
      acceptedF ignN ignI v = true →
      movingStats.Add (fresh 0 ignN ignI) (v :: vs) = none) ∧
    (∀ ignN ignI : Bool,
      movingStats.Count (fresh 0 ignN ignI) = some 0 ∧
      movingStats.SlotsFilled (fresh 0 ignN ignI) = false ∧
      movingStats.Avg (fresh 0 ignN ignI) = some (F64.finite 0) ∧
      movingStats.Median (fresh 0 ignN ignI) = some (F64.finite 0) ∧
      movingStats.Min (fresh 0 ignN ignI) = some (F64.finite 0) ∧
      movingStats.Max (fresh 0 ignN ignI) = some (F64.finite 0) ∧
      movingStats.Values (fresh 0 ignN ignI) = some []) := by
  refine ⟨?_, ?_, ?_, ?_⟩
  · intro opts hneg
    unfold New
    rw [if_pos hneg]
  · intro ignN ignI
    rfl
  · intro ignN ignI v vs hacc
    have h1 : (ignN && v.isNaN) = false := by
      unfold acceptedF at hacc
      cases h : (ignN && v.isNaN) <;> simp_all
    have h2 : (ignI && v.isInf) = false := by
      unfold acceptedF at hacc
      cases h : (ignI && v.isInf) <;> simp_all
    rw [Add_cons]
    have hone : movingStats.addOne (fresh 0 ignN ignI) v = none := by
      unfold movingStats.addOne
      rw [if_neg (by simp [fresh, h1]), if_neg (by simp [fresh, h2]),
        if_neg (by simp [fresh])]
    rw [hone]
    rfl
  · intro ignN ignI
    exact ⟨rfl, rfl, rfl, rfl, rfl, rfl, rfl⟩

/-- Witness for C10: on a window-0 store, adding the accepted value 7
panics. -/
theorem claim_C10_witness :
    acceptedF false false (F64.finite 7) = true ∧
    movingStats.Add (fresh 0 false false) [F64.finite 7] = none :=
  ⟨by decide, claim_C10.2.2.1 false false (F64.finite 7) [] (by decide)⟩

end MovingAverage
